import Mathlib

/-!
Shallow embedding of the go-migrations repository (github.com/rsgcata/go-migrations).

The embedding covers:
* `execution` package: `MigrationExecution`, `StartExecution`, `FinishExecution`,
  `Finished`, and the `Repository` interface;
* `migration` package: the `Migration` interface and the `MigrationsRegistry`;
* `handler` package: `ExecutionPlan` (`NewPlan` and its query methods) and
  `MigrationsHandler` (`MigrateUp`, `MigrateDown`, `ForceUp`, `ForceDown`,
  `NewNumOfRuns`).

Modelling conventions:
* Go `error` values become `Option GoError` (`none` = `nil`); `fmt.Errorf`
  wrapping is modelled structurally by the `GoError` constructors.
* A `Migration` interface value is modelled as a record carrying its version
  and the fixed results of its `Up()` and `Down()` calls.
* The `Repository` interface is modelled as a record of response functions, one
  per interface method used by the handler; methods that in Go return both a
  value and an error return the corresponding pair here.
* `time.Now().UnixMilli()` is modelled by an explicit `now : Nat` parameter
  (the Go value is always positive, which theorems take as the hypothesis
  `0 < now` where it matters).
* Side effects of the handler (calls to `Up`, `Down`, `Save`, `Remove`,
  `FindOne`) are made observable as an `Event` trace returned alongside the
  Go return values.
* Go `uint64` values (versions, timestamps) are modelled as `Nat`: the program
  performs no arithmetic on them that could overflow, it only compares them.
  Go `int` is modelled as `Int` where sign matters (`NumOfRuns`).
-/

namespace GoMigrations

/-- Model of Go `error` values as built by this program: a leaf message
(`errors.New` / a `fmt.Errorf` without `%w`), a message wrapping one inner
error (`fmt.Errorf` with one `%w`), or a message joining two inner errors
(`fmt.Errorf` with two `%w` verbs, both non-nil). -/
inductive GoError where
  | simple (msg : String)
  | wrap (msg : String) (inner : GoError)
  | joins (msg : String) (a b : GoError)
deriving DecidableEq, Repr

/-- `fmt.Errorf("%s, errors: %w, %w", msg, a, b)` as used in `MigrateUp`,
where either (but not both) of the wrapped errors may be Go `nil`. -/
def combineStepErrors (msg : String) (a b : Option GoError) : GoError :=
  match a, b with
  | some x, some y => .joins msg x y
  | some x, none => .wrap msg x
  | none, some y => .wrap msg y
  | none, none => .simple msg

/-- `execution.MigrationExecution`: version, started-at and finished-at
timestamps in epoch milliseconds (0 = unfinished). -/
structure MigrationExecution where
  Version : Nat
  ExecutedAtMs : Nat
  FinishedAtMs : Nat
deriving DecidableEq, Repr

/-- `MigrationExecution.Finished()`: `FinishedAtMs > 0`. -/
def MigrationExecution.Finished (e : MigrationExecution) : Bool :=
  decide (e.FinishedAtMs > 0)

/-- `MigrationExecution.FinishExecution()`: sets `FinishedAtMs` to the current
time unless the execution is already finished. -/
def MigrationExecution.FinishExecution (e : MigrationExecution) (now : Nat) :
    MigrationExecution :=
  if e.Finished then e else { e with FinishedAtMs := now }

/-- `migration.Migration` interface value: its static version together with the
results its `Up()` and `Down()` calls return (`none` = success). -/
structure Migration where
  version : Nat
  upResult : Option GoError
  downResult : Option GoError
deriving DecidableEq, Repr

/-- `execution.StartExecution`: fresh record for a migration, started now,
unfinished. -/
def StartExecution (m : Migration) (now : Nat) : MigrationExecution :=
  ⟨m.version, now, 0⟩

/-- `migration.MigrationsRegistry`, represented by the list its
`OrderedMigrations()` method returns (for `GenericRegistry` this is the list of
registered migrations sorted ascending by version). -/
structure MigrationsRegistry where
  orderedMigrations : List Migration
deriving DecidableEq, Repr

def MigrationsRegistry.OrderedMigrations (r : MigrationsRegistry) : List Migration :=
  r.orderedMigrations

/-- `MigrationsRegistry.Get(version)`: the registered migration with that
version, or `nil`. -/
def MigrationsRegistry.Get (r : MigrationsRegistry) (version : Nat) : Option Migration :=
  r.orderedMigrations.find? (fun m => m.version == version)

/-- `MigrationsRegistry.Count()`. -/
def MigrationsRegistry.Count (r : MigrationsRegistry) : Nat :=
  r.orderedMigrations.length

/-- The versions of the listed migrations are strictly ascending (hence
unique); this is the documented contract of `OrderedMigrations()`. -/
def ascendingVersions : List Migration → Bool
  | [] => true
  | [_] => true
  | m1 :: m2 :: rest => m1.version < m2.version && ascendingVersions (m2 :: rest)

/-- A registry honouring the `OrderedMigrations()` contract. -/
def MigrationsRegistry.WellFormed (r : MigrationsRegistry) : Prop :=
  ascendingVersions r.orderedMigrations = true

instance (r : MigrationsRegistry) : Decidable r.WellFormed :=
  inferInstanceAs (Decidable (ascendingVersions r.orderedMigrations = true))

/-- `execution.Repository` interface, as a record of response functions.
Methods that in Go return a value and an error return the pair here. -/
structure Repository where
  loadResult : List MigrationExecution × Option GoError
  saveResult : MigrationExecution → Option GoError
  removeResult : MigrationExecution → Option GoError
  findOneResult : Nat → Option MigrationExecution × Option GoError

/-- Observable side effects of a handler call: the migration actions invoked
and the repository mutations requested, in program order. -/
inductive Event where
  | up (version : Nat)
  | down (version : Nat)
  | save (rec : MigrationExecution)
  | remove (rec : MigrationExecution)
  | findOne (version : Nat)
deriving DecidableEq, Repr

/-- `handler.ExecutedMigration`: a migration paired with its (possibly `nil`)
execution record; the migration itself is `nil` in the zero value. -/
structure ExecutedMigration where
  migration : Option Migration
  execution : Option MigrationExecution
deriving DecidableEq, Repr

/-- `handler.ExecutionPlan`. -/
structure ExecutionPlan where
  orderedMigrations : List Migration
  orderedExecutions : List MigrationExecution
deriving DecidableEq, Repr

/-- The `sort.Slice(executions, ...)` call in `NewPlan`: sort ascending by
version. -/
def sortExecutions (l : List MigrationExecution) : List MigrationExecution :=
  List.insertionSort (fun a b => a.Version ≤ b.Version) l

/-- The validation loop of `NewPlan`: walks the sorted executions with their
index `i` (paired positionally with the registered migrations), `total` being
the total number of executions. Errors if an execution other than the last is
unfinished, or if an execution version does not match the registered migration
at the same index. The `[]`-migrations case is Go's index-out-of-range panic
and is unreachable from `NewPlan`, which checks the lengths first. -/
def validateExecutions :
    List Migration → List MigrationExecution → Nat → Nat → Option GoError
  | _, [], _, _ => none
  | [], _ :: _, _, _ => some (.simple "index out of range")
  | m :: ms, e :: es, i, total =>
    if e.Finished = false ∧ i ≠ total - 1 then
      some (.simple "failed to create new execution plan, there are multiple executions which are not finished")
    else if e.Version ≠ m.version then
      some (.simple "failed to create new execution plan, migrations and executions are out of order")
    else
      validateExecutions ms es (i + 1) total

/-- `handler.NewPlan`: load the executions, sort them by version, and fail if
there are more executions than registered migrations or if the validation loop
finds an inconsistency. -/
def NewPlan (registry : MigrationsRegistry) (repository : Repository) :
    Except GoError ExecutionPlan :=
  match repository.loadResult with
  | (_, some e) =>
    .error (.wrap "failed to create new execution plan, failed to load executions" e)
  | (executions, none) =>
    let sorted := sortExecutions executions
    let migs := registry.OrderedMigrations
    if sorted.length > migs.length then
      .error (.simple "failed to create new execution plan, there are more executions than registered migrations")
    else
      match validateExecutions migs sorted 0 sorted.length with
      | some e => .error e
      | none => .ok ⟨migs, sorted⟩

/-- `ExecutionPlan.RegisteredMigrationsCount()`. -/
def ExecutionPlan.RegisteredMigrationsCount (plan : ExecutionPlan) : Nat :=
  plan.orderedMigrations.length

/-- `ExecutionPlan.FinishedExecutionsCount()`: the number of executions, minus
one if the last one is unfinished. -/
def ExecutionPlan.FinishedExecutionsCount (plan : ExecutionPlan) : Nat :=
  match plan.orderedExecutions.getLast? with
  | none => 0
  | some e =>
    if e.Finished then plan.orderedExecutions.length
    else plan.orderedExecutions.length - 1

/-- `ExecutionPlan.AllToBeExecuted()`: the registered migrations after the
finished count, or empty. -/
def ExecutionPlan.AllToBeExecuted (plan : ExecutionPlan) : List Migration :=
  if plan.FinishedExecutionsCount < plan.RegisteredMigrationsCount then
    plan.orderedMigrations.drop plan.FinishedExecutionsCount
  else
    []

/-- The data underlying `ExecutionPlan.AllExecuted()`: each execution paired
positionally with the registered migration at the same index. In Go the loop
indexes `orderedMigrations[i]` for every index `i` of `orderedExecutions`,
which is in bounds for every plan `NewPlan` returns. -/
def ExecutionPlan.executedPairs (plan : ExecutionPlan) :
    List (Migration × MigrationExecution) :=
  List.zipWith (fun m e => (m, e)) plan.orderedMigrations plan.orderedExecutions

/-- `ExecutionPlan.AllExecuted()`. -/
def ExecutionPlan.AllExecuted (plan : ExecutionPlan) : List ExecutedMigration :=
  plan.executedPairs.map (fun me => ⟨some me.1, some me.2⟩)

/-- `ExecutionPlan.NextToExecute()`: first pending migration or `nil`. -/
def ExecutionPlan.NextToExecute (plan : ExecutionPlan) : Option Migration :=
  plan.AllToBeExecuted.head?

/-- `ExecutionPlan.LastExecuted()`: last element of `AllExecuted()` or the
zero value. -/
def ExecutionPlan.LastExecuted (plan : ExecutionPlan) : ExecutedMigration :=
  plan.AllExecuted.getLast?.getD ⟨none, none⟩

/-- `handler.MigrationsHandler` built by `NewHandler` with the default
`NewPlan` plan builder. -/
structure MigrationsHandler where
  registry : MigrationsRegistry
  repository : Repository

/-- The characters Go's `unicode.IsSpace` accepts (the Unicode White_Space
property). -/
def isGoSpace (c : Char) : Bool :=
  let n := c.toNat
  n = 0x9 || n = 0xA || n = 0xB || n = 0xC || n = 0xD || n = 0x20 ||
    n = 0x85 || n = 0xA0 || n = 0x1680 || (0x2000 ≤ n && n ≤ 0x200A) ||
    n = 0x2028 || n = 0x2029 || n = 0x202F || n = 0x205F || n = 0x3000

/-- `strings.TrimSpace`, on the character list of the string. -/
def trimSpace (s : String) : List Char :=
  ((s.toList.dropWhile isGoSpace).reverse.dropWhile isGoSpace).reverse

/-- ASCII decimal digit test, as `strconv` performs it. -/
def isDigit (c : Char) : Bool :=
  0x30 ≤ c.toNat && c.toNat ≤ 0x39

/-- Accumulating decimal parse of `strconv.ParseUint`: fails on the first
non-digit character. -/
def parseDigits : List Char → Nat → Option Nat
  | [], acc => some acc
  | c :: rest, acc =>
    if isDigit c then parseDigits rest (acc * 10 + (c.toNat - 0x30)) else none

/-- A non-empty all-digit parse (after the optional sign has been removed). -/
def atoiDigits (cs : List Char) : Option Nat :=
  match cs with
  | [] => none
  | _ => parseDigits cs 0

/-- The character-level body of `Atoi`: optional sign, then digits. -/
def atoiChars : List Char → Option Int
  | [] => none
  | c :: rest =>
    if c = '+' then
      match atoiDigits rest with
      | some n => if n ≤ 2 ^ 63 - 1 then some (n : Int) else none
      | none => none
    else if c = '-' then
      match atoiDigits rest with
      | some n => if n ≤ 2 ^ 63 then some (-(n : Int)) else none
      | none => none
    else
      match atoiDigits (c :: rest) with
      | some n => if n ≤ 2 ^ 63 - 1 then some (n : Int) else none
      | none => none

/-- `strconv.Atoi` on a 64-bit platform: optional sign, one or more ASCII
digits, and the value must fit a signed 64-bit integer; `none` covers both
Go's syntax and range errors (the handler only tests the error for nil). -/
def Atoi (s : String) : Option Int :=
  atoiChars s.toList

/-- `handler.NewNumOfRuns`: `"all"` becomes 99999, a blank string becomes 1,
anything else is parsed with `Atoi`; parse failure returns `(1, error)` and a
non-positive parse is clamped to 1. -/
def NewNumOfRuns (num : String) : Int × Option GoError :=
  let num1 :=
    if num == "all" then "99999"
    else if (trimSpace num).isEmpty then "1"
    else num
  match Atoi num1 with
  | none =>
    (1, some (.simple "failed to build new num of runs from provided string"))
  | some parsedNum => (if parsedNum ≤ 0 then 1 else parsedNum, none)

/-- The execution record a `MigrateUp` / `ForceUp` step holds after running a
migration forward: started now, and finished (also now) exactly when `Up()`
returned nil. -/
def upRecord (m : Migration) (now : Nat) : MigrationExecution :=
  match m.upResult with
  | none => (StartExecution m now).FinishExecution now
  | some _ => StartExecution m now

/-- The result-slice entry a forward step contributes. -/
def upEntry (m : Migration) (now : Nat) : ExecutedMigration :=
  ⟨some m, some (upRecord m now)⟩

/-- Whether a forward step fails: its `Up()` or the subsequent `Save` errors. -/
def upStepFails (repo : Repository) (m : Migration) (now : Nat) : Bool :=
  m.upResult.isSome || (repo.saveResult (upRecord m now)).isSome

/-- The loop body of `MigrateUp` over the pending migrations it will attempt:
start a record, run `Up()`, finish the record only on success, append the
entry, `Save` the record regardless, and stop with a combined error if either
`Up()` or `Save` failed. -/
def migrateUpLoop (repo : Repository) (now : Nat) :
    List Migration → List ExecutedMigration × Option GoError × List Event
  | [] => ([], none, [])
  | m :: rest =>
    let exec := upRecord m now
    let entry : ExecutedMigration := ⟨some m, some exec⟩
    let saveErr := repo.saveResult exec
    if m.upResult.isSome || saveErr.isSome then
      ([entry],
        some (combineStepErrors "failed to migrate all up, errors" m.upResult saveErr),
        [.up m.version, .save exec])
    else
      let res := migrateUpLoop repo now rest
      (entry :: res.1, res.2.1, .up m.version :: .save exec :: res.2.2)

/-- `MigrationsHandler.MigrateUp`: nothing to do on an empty registry; build
the plan (propagating its error); then run at most
`min(len(pending), numOfRuns)` pending migrations in order. -/
def MigrateUp (h : MigrationsHandler) (numOfRuns : Int) (now : Nat) :
    List ExecutedMigration × Option GoError × List Event :=
  if h.registry.Count = 0 then ([], none, [])
  else
    match NewPlan h.registry h.repository with
    | .error e =>
      ([], some (.wrap "failed to migrate all up, failed to create execution plan" e), [])
    | .ok plan =>
      let allToBeExec := plan.AllToBeExecuted
      let actualNumOfRuns : Int := min (allToBeExec.length : Int) numOfRuns
      migrateUpLoop h.repository now (allToBeExec.take actualNumOfRuns.toNat)

/-- The loop body of `MigrateDown` over the (reversed) executed pairs it will
attempt: run `Down()`; on failure report the entry with a nil execution and
stop; otherwise `Remove` the record, reporting a removal failure the same way;
on success keep the full entry and continue. -/
def migrateDownLoop (repo : Repository) :
    List (Migration × MigrationExecution) →
      List ExecutedMigration × Option GoError × List Event
  | [] => ([], none, [])
  | (m, e) :: rest =>
    match m.downResult with
    | some downErr => ([⟨some m, none⟩], some downErr, [.down m.version])
    | none =>
      match repo.removeResult e with
      | some removeErr =>
        ([⟨some m, none⟩], some removeErr, [.down m.version, .remove e])
      | none =>
        let res := migrateDownLoop repo rest
        (⟨some m, some e⟩ :: res.1, res.2.1,
          .down m.version :: .remove e :: res.2.2)

/-- `MigrationsHandler.MigrateDown`: build the plan (propagating its error),
reverse `AllExecuted()` (most recent first) and run at most
`min(len(executed), numOfRuns)` rollbacks. The Go loop reads the
`Migration` / `Execution` fields of the reversed `AllExecuted()` entries,
which are exactly the `executedPairs` data. -/
def MigrateDown (h : MigrationsHandler) (numOfRuns : Int) :
    List ExecutedMigration × Option GoError × List Event :=
  match NewPlan h.registry h.repository with
  | .error e =>
    ([], some (.wrap "failed to migrate all down, failed to create execution plan" e), [])
  | .ok plan =>
    let execMigrations := plan.executedPairs.reverse
    let actualNumOfRuns : Int := min (execMigrations.length : Int) numOfRuns
    migrateDownLoop h.repository (execMigrations.take actualNumOfRuns.toNat)

/-- `MigrationsHandler.ForceUp`: absent version is a no-op; otherwise start a
record, run `Up()`, finish the record only on success, `Save` it
unconditionally, and combine an `Up()` error with a `Save` error when both
occur. -/
def ForceUp (h : MigrationsHandler) (version : Nat) (now : Nat) :
    ExecutedMigration × Option GoError × List Event :=
  match h.registry.Get version with
  | none => (⟨none, none⟩, none, [])
  | some migrationToExec =>
    let exec := upRecord migrationToExec now
    let errSave := h.repository.saveResult exec
    let finalErr : Option GoError :=
      match migrationToExec.upResult, errSave with
      | none, _ => errSave
      | some e, none => some e
      | some e, some es => some (.joins "" e es)
    (⟨some migrationToExec, some exec⟩, finalErr,
      [.up migrationToExec.version, .save exec])

/-- `MigrationsHandler.ForceDown`: absent version is a no-op; a `FindOne`
error or a missing record fails before any backward action; a `Down()` failure
stops before the removal; only after `Down()` succeeded is the record removed. -/
def ForceDown (h : MigrationsHandler) (version : Nat) :
    ExecutedMigration × Option GoError × List Event :=
  match h.registry.Get version with
  | none => (⟨none, none⟩, none, [])
  | some migrationToExec =>
    match h.repository.findOneResult version with
    | (_, some e) =>
      (⟨some migrationToExec, none⟩,
        some (.wrap "failed to migrate down forcefully, failed to load execution" e),
        [.findOne version])
    | (none, none) =>
      (⟨some migrationToExec, none⟩,
        some (.simple "failed to migrate down forcefully, execution not found. Maybe the migration was never executed"),
        [.findOne version])
    | (some exec, none) =>
      match migrationToExec.downResult with
      | some errDown =>
        (⟨some migrationToExec, none⟩,
          some (.wrap "failed to migrate down forcefully, down() failed" errDown),
          [.findOne version, .down migrationToExec.version])
      | none =>
        (⟨some migrationToExec, some exec⟩, h.repository.removeResult exec,
          [.findOne version, .down migrationToExec.version, .remove exec])

/-- The trace of one forward step: run `Up()`, then `Save` the record. -/
def upStepTrace (m : Migration) (now : Nat) : List Event :=
  [Event.up m.version, Event.save (upRecord m now)]

/-- Whether a rollback step fully succeeds: `Down()` and the `Remove` both
return nil. -/
def downStepOk (repo : Repository) (pe : Migration × MigrationExecution) : Bool :=
  pe.1.downResult.isNone && (repo.removeResult pe.2).isNone

/-- The trace of one rollback step: `Down()` always runs; `Remove` is called
only when `Down()` succeeded. -/
def downStepTrace (pe : Migration × MigrationExecution) : List Event :=
  match pe.1.downResult with
  | some _ => [Event.down pe.1.version]
  | none => [Event.down pe.1.version, Event.remove pe.2]

/-- The error a failing rollback step reports: the `Down()` error, else the
`Remove` error. -/
def downStepErr (repo : Repository) (pe : Migration × MigrationExecution) :
    Option GoError :=
  match pe.1.downResult with
  | some e => some e
  | none => repo.removeResult pe.2

/-! ### Concrete instances used to exercise the theorems -/

def upBoom : GoError := .simple "up boom"
def downBoom : GoError := .simple "down boom"
def saveBoom : GoError := .simple "save boom"

/-- A migration whose actions both succeed. -/
def mig (v : Nat) : Migration := ⟨v, none, none⟩

/-- A migration whose `Up()` fails. -/
def migUpFail (v : Nat) : Migration := ⟨v, some upBoom, none⟩

/-- A migration whose `Down()` fails. -/
def migDownFail (v : Nat) : Migration := ⟨v, none, some downBoom⟩

/-- A repository holding history `E` whose mutations all succeed (the
in-memory repository with no forced errors). -/
def okRepo (E : List MigrationExecution) : Repository :=
  ⟨(E, none), fun _ => none, fun _ => none,
    fun v => (E.find? (fun e => e.Version == v), none)⟩

/-- A repository holding history `E` whose `Save` always fails. -/
def saveFailRepo (E : List MigrationExecution) : Repository :=
  ⟨(E, none), fun _ => some saveBoom, fun _ => none,
    fun v => (E.find? (fun e => e.Version == v), none)⟩

/-- Two registered migrations, versions 1 and 2. -/
def regTwo : MigrationsRegistry := ⟨[mig 1, mig 2]⟩

/-- Three registered migrations, versions 1, 2 and 3. -/
def regThree : MigrationsRegistry := ⟨[mig 1, mig 2, mig 3]⟩

/-- A history with both records finished, loaded out of order. -/
def histSwapped : List MigrationExecution := [⟨2, 5, 6⟩, ⟨1, 3, 4⟩]

/-- A history whose tail record (version 2) is unfinished. -/
def histTailUnfinished : List MigrationExecution := [⟨1, 1, 2⟩, ⟨2, 3, 0⟩]

/-- A fully finished three-step history. -/
def histThree : List MigrationExecution := [⟨1, 1, 2⟩, ⟨2, 3, 4⟩, ⟨3, 5, 6⟩]

/-- The plan `NewPlan` builds from `regTwo` and `histTailUnfinished`. -/
def planTail : ExecutionPlan := ⟨[mig 1, mig 2], [⟨1, 1, 2⟩, ⟨2, 3, 0⟩]⟩

/-- The plan `NewPlan` builds from `regThree` and `histThree`. -/
def planThree : ExecutionPlan := ⟨[mig 1, mig 2, mig 3], histThree⟩

/-- A single-migration registry. -/
def regOne : MigrationsRegistry := ⟨[mig 1]⟩

/-- A registry whose second migration has a failing `Up()`. -/
def regUpFail : MigrationsRegistry := ⟨[mig 1, migUpFail 2, mig 3]⟩

/-- The plan `NewPlan` builds from `regUpFail` and an empty history. -/
def planUpFail : ExecutionPlan := ⟨[mig 1, migUpFail 2, mig 3], []⟩

/-! ### Specification predicates -/

/-- The specification's gapless-prefix condition on the sorted execution
history: no more executions than registered migrations, every execution except
possibly the last one finished, and execution versions matching the registered
migration versions index by index. -/
def GaplessPrefix (migs : List Migration)
    (sortedExecs : List MigrationExecution) : Prop :=
  sortedExecs.length ≤ migs.length ∧
  (∀ j, j + 1 < sortedExecs.length →
    ∀ e, sortedExecs[j]? = some e → e.Finished = true) ∧
  (∀ (j : Nat) (e : MigrationExecution) (m : Migration),
    sortedExecs[j]? = some e → migs[j]? = some m → e.Version = m.version)

/-! ### Properties of the plan validation loop -/

theorem validateExecutions_nil (ms : List Migration) (i total : Nat) :
    validateExecutions ms [] i total = none := by
  cases ms <;> rfl

/-- The `NewPlan` validation loop succeeds exactly when every non-last
execution is finished and the execution versions match the registered
migration versions positionally. -/
theorem validateExecutions_eq_none_iff
    (execs : List MigrationExecution) :
    ∀ (migs : List Migration) (i total : Nat),
      execs.length ≤ migs.length →
      total = i + execs.length →
      (validateExecutions migs execs i total = none ↔
        ((∀ j, j + 1 < execs.length →
            ∀ e, execs[j]? = some e → e.Finished = true) ∧
         (∀ (j : Nat) (e : MigrationExecution) (m : Migration),
            execs[j]? = some e → migs[j]? = some m →
            e.Version = m.version))) := by
  induction execs with
  | nil =>
    intro migs i total _ _
    rw [validateExecutions_nil]
    constructor
    · intro _
      refine ⟨?_, ?_⟩
      · intro j hj
        simp at hj
      · intro j e m he
        simp at he
    · intro _
      rfl
  | cons e es ih =>
    intro migs i total hlen htot
    cases migs with
    | nil => simp at hlen
    | cons m ms =>
      have hlen' : es.length ≤ ms.length := by
        simpa using hlen
      have htot' : total = (i + 1) + es.length := by
        simp only [List.length_cons] at htot
        omega
      have hich : (i ≠ total - 1) ↔ 0 < es.length := by
        simp only [List.length_cons] at htot
        omega
      show (if e.Finished = false ∧ i ≠ total - 1 then _
            else if e.Version ≠ m.version then _
            else validateExecutions ms es (i + 1) total) = none ↔ _
      by_cases h1 : e.Finished = false ∧ i ≠ total - 1
      · rw [if_pos h1]
        simp only [List.length_cons]
        constructor
        · intro hcontra
          exact Option.noConfusion hcontra
        · rintro ⟨hA, _⟩
          have hpos : 0 < es.length := hich.mp h1.2
          have := hA 0 (by omega) e List.getElem?_cons_zero
          rw [this] at h1
          exact absurd h1.1 (by simp)
      · rw [if_neg h1]
        by_cases h2 : e.Version ≠ m.version
        · rw [if_pos h2]
          constructor
          · intro hcontra
            exact Option.noConfusion hcontra
          · rintro ⟨_, hB⟩
            exact absurd (hB 0 e m List.getElem?_cons_zero List.getElem?_cons_zero) h2
        · rw [if_neg h2]
          push_neg at h2
          rw [ih ms (i + 1) total hlen' htot']
          have hfin : 0 < es.length → e.Finished = true := by
            intro hpos
            by_contra hne
            exact h1 ⟨by simpa using hne, hich.mpr hpos⟩
          constructor
          · rintro ⟨hA', hB'⟩
            refine ⟨?_, ?_⟩
            · intro j hj x hx
              cases j with
              | zero =>
                simp only [List.getElem?_cons_zero, Option.some.injEq] at hx
                subst hx
                exact hfin (by simpa using hj)
              | succ j =>
                simp only [List.getElem?_cons_succ] at hx
                exact hA' j (by simpa using hj) x hx
            · intro j x m' hx hm'
              cases j with
              | zero =>
                simp only [List.getElem?_cons_zero, Option.some.injEq] at hx hm'
                subst hx
                subst hm'
                exact h2
              | succ j =>
                simp only [List.getElem?_cons_succ] at hx hm'
                exact hB' j x m' hx hm'
          · rintro ⟨hA, hB⟩
            refine ⟨?_, ?_⟩
            · intro j hj x hx
              exact hA (j + 1) (by simpa using hj) x
                (by simpa only [List.getElem?_cons_succ] using hx)
            · intro j x m' hx hm'
              exact hB (j + 1) x m'
                (by simpa only [List.getElem?_cons_succ] using hx)
                (by simpa only [List.getElem?_cons_succ] using hm')

/-- Unpacking a successful `NewPlan`: the plan holds the registry migrations
and the sorted loaded executions, which passed both the length check and the
validation loop. -/
theorem newPlan_ok_elim {R : MigrationsRegistry} {repo : Repository}
    {plan : ExecutionPlan} (h : NewPlan R repo = .ok plan) :
    plan.orderedMigrations = R.orderedMigrations ∧
    plan.orderedExecutions = sortExecutions (repo.loadResult).1 ∧
    (repo.loadResult).2 = none ∧
    plan.orderedExecutions.length ≤ plan.orderedMigrations.length ∧
    (∀ j, j + 1 < plan.orderedExecutions.length →
      ∀ e, plan.orderedExecutions[j]? = some e → e.Finished = true) ∧
    (∀ (j : Nat) (e : MigrationExecution) (m : Migration),
      plan.orderedExecutions[j]? = some e →
      plan.orderedMigrations[j]? = some m → e.Version = m.version) := by
  unfold NewPlan at h
  rcases hl : repo.loadResult with ⟨execs, err⟩
  rw [hl] at h
  cases err with
  | some e => exact absurd h (by simp)
  | none =>
    dsimp only at h
    by_cases hgt :
        (sortExecutions execs).length > R.OrderedMigrations.length
    · rw [if_pos hgt] at h
      exact absurd h (by simp)
    · rw [if_neg hgt] at h
      have hle : (sortExecutions execs).length ≤ R.OrderedMigrations.length := by
        omega
      rcases hv : validateExecutions R.OrderedMigrations (sortExecutions execs)
          0 (sortExecutions execs).length with _ | e
      · rw [hv] at h
        have hok :=
          (validateExecutions_eq_none_iff (sortExecutions execs)
            R.OrderedMigrations 0 (sortExecutions execs).length hle
            (by omega)).mp hv
        cases h
        exact ⟨rfl, rfl, rfl, hle, hok.1, hok.2⟩
      · rw [hv] at h
        exact absurd h (by simp)

/-- C1. Prefix invariant of plan construction: for every registry with
ascending unique versions and every execution history `E` the store loads,
`NewPlan` returns a plan (no error) if and only if `E`, sorted ascending by
version, has at most as many records as there are registered migrations, every
record except possibly the last sorted one is finished, and record `i`'s
version equals the version of the `i`-th registered migration; any violation
makes `NewPlan` return an error and no plan. -/
theorem newPlan_succeeds_iff_gapless_history
    (R : MigrationsRegistry) (repo : Repository) (E : List MigrationExecution)
    (hR : R.WellFormed) (hload : repo.loadResult = (E, none)) :
    (∃ plan, NewPlan R repo = .ok plan) ↔
      GaplessPrefix R.orderedMigrations (sortExecutions E) := by
  constructor
  · rintro ⟨plan, hplan⟩
    obtain ⟨hm, he, -, hlen, hfin, hver⟩ := newPlan_ok_elim hplan
    rw [hload] at he
    dsimp only at he
    unfold GaplessPrefix
    rw [← hm, ← he]
    exact ⟨hlen, hfin, hver⟩
  · rintro ⟨hlen, hfin, hver⟩
    unfold NewPlan
    rw [hload]
    dsimp only
    rw [if_neg (by
      show ¬(sortExecutions E).length > R.OrderedMigrations.length
      exact not_lt.mpr hlen)]
    rw [(validateExecutions_eq_none_iff (sortExecutions E) R.OrderedMigrations
      0 (sortExecutions E).length hlen (by omega)).mpr ⟨hfin, hver⟩]
    exact ⟨_, rfl⟩

/-- `newPlan_succeeds_iff_gapless_history` exercised on a two-migration
registry with a fully finished history loaded out of order. -/
theorem newPlan_succeeds_iff_gapless_history_witness :
    regTwo.WellFormed ∧ (okRepo histSwapped).loadResult = (histSwapped, none) ∧
    ((∃ plan, NewPlan regTwo (okRepo histSwapped) = .ok plan) ↔
      GaplessPrefix regTwo.orderedMigrations (sortExecutions histSwapped)) :=
  ⟨by decide, rfl,
    newPlan_succeeds_iff_gapless_history regTwo (okRepo histSwapped)
      histSwapped (by decide) rfl⟩

/-- The first result entry of a non-empty forward batch is the first
migration together with a (non-nil) execution record, whether or not the step
failed. -/
theorem migrateUpLoop_cons_head (repo : Repository) (now : Nat) (m : Migration)
    (rest : List Migration) :
    ∃ exec tail, (migrateUpLoop repo now (m :: rest)).1
      = ⟨some m, some exec⟩ :: tail := by
  unfold migrateUpLoop
  dsimp only
  split
  · exact ⟨_, [], rfl⟩
  · exact ⟨_, _, rfl⟩

/-- In a plan whose last execution is unfinished, the finished count is the
number of executions minus one. -/
theorem finishedExecutionsCount_of_unfinished_tail
    (plan : ExecutionPlan) (e : MigrationExecution)
    (hlast : plan.orderedExecutions.getLast? = some e)
    (hunf : e.Finished = false) :
    plan.FinishedExecutionsCount = plan.orderedExecutions.length - 1 := by
  unfold ExecutionPlan.FinishedExecutionsCount
  rw [hlast]
  simp [hunf]

/-- C2. Resumability of an unfinished tail: in every validly constructed plan
whose sorted executions end in an unfinished record of version `v`,
`NextToExecute()` returns the registered migration whose version is `v` (not
its successor), `AllToBeExecuted()` begins with that same migration, and
`MigrateUp(1)` re-executes exactly that migration rather than skipping it. -/
theorem plan_resumes_unfinished_tail
    (R : MigrationsRegistry) (repo : Repository) (plan : ExecutionPlan)
    (e : MigrationExecution) (now : Nat)
    (hplan : NewPlan R repo = .ok plan)
    (hlast : plan.orderedExecutions.getLast? = some e)
    (hunf : e.Finished = false) :
    ∃ m : Migration,
      plan.NextToExecute = some m ∧
      m.version = e.Version ∧
      plan.AllToBeExecuted.head? = some m ∧
      ((MigrateUp ⟨R, repo⟩ 1 now).1.map (fun en => en.migration)).head?
        = some (some m) := by
  obtain ⟨hm, -, -, hlen, -, hver⟩ := newPlan_ok_elim hplan
  have hepos : 0 < plan.orderedExecutions.length := by
    by_contra hc
    push_neg at hc
    have hnil : plan.orderedExecutions = [] :=
      List.eq_nil_of_length_eq_zero (by omega)
    rw [hnil] at hlast
    simp at hlast
  have hcount := finishedExecutionsCount_of_unfinished_tail plan e hlast hunf
  have hklt : plan.orderedExecutions.length - 1 < plan.orderedMigrations.length := by
    omega
  have hmig : ∃ m : Migration,
      plan.orderedMigrations[plan.orderedExecutions.length - 1]? = some m := by
    rcases hx : plan.orderedMigrations[plan.orderedExecutions.length - 1]? with - | m
    · rw [List.getElem?_eq_none_iff] at hx
      omega
    · exact ⟨m, rfl⟩
  obtain ⟨m, hmidx⟩ := hmig
  have heidx : plan.orderedExecutions[plan.orderedExecutions.length - 1]? = some e := by
    rw [← List.getLast?_eq_getElem?]
    exact hlast
  have hpair := hver _ e m heidx hmidx
  have htobe : plan.AllToBeExecuted =
      plan.orderedMigrations.drop (plan.orderedExecutions.length - 1) := by
    unfold ExecutionPlan.AllToBeExecuted
    rw [hcount, if_pos]
    exact hklt
  have hhead : plan.AllToBeExecuted.head? = some m := by
    rw [htobe, List.head?_eq_getElem?, List.getElem?_drop]
    simpa using hmidx
  refine ⟨m, ?_, hpair.symm, hhead, ?_⟩
  · unfold ExecutionPlan.NextToExecute
    exact hhead
  · have hc : MigrationsRegistry.Count R ≠ 0 := by
      unfold MigrationsRegistry.Count
      rw [← hm]
      omega
    unfold MigrateUp
    dsimp only
    rw [if_neg hc, hplan]
    dsimp only
    have hlen1 : 0 < plan.AllToBeExecuted.length := by
      cases ht : plan.AllToBeExecuted with
      | nil =>
        rw [ht] at hhead
        simp at hhead
      | cons y ys => simp [ht]
    have hmin : min ((plan.AllToBeExecuted.length : Int)) 1 = 1 := by
      omega
    rw [hmin]
    have htake : plan.AllToBeExecuted.take (Int.toNat 1) = [m] := by
      show plan.AllToBeExecuted.take 1 = [m]
      cases ht : plan.AllToBeExecuted with
      | nil =>
        rw [ht] at hhead
        simp at hhead
      | cons y ys =>
        rw [ht] at hhead
        simp at hhead
        rw [hhead]
        rfl
    rw [htake]
    obtain ⟨exec, tail, hloop⟩ := migrateUpLoop_cons_head repo now m []
    rw [hloop]
    simp

/-- `plan_resumes_unfinished_tail` exercised on a two-migration registry with
a finished record for version 1 and an unfinished tail record for version 2. -/
theorem plan_resumes_unfinished_tail_witness :
    NewPlan regTwo (okRepo histTailUnfinished) = .ok planTail ∧
    planTail.orderedExecutions.getLast? = some ⟨2, 3, 0⟩ ∧
    MigrationExecution.Finished ⟨2, 3, 0⟩ = false ∧
    (∃ m : Migration,
      planTail.NextToExecute = some m ∧
      m.version = (⟨2, 3, 0⟩ : MigrationExecution).Version ∧
      planTail.AllToBeExecuted.head? = some m ∧
      ((MigrateUp ⟨regTwo, okRepo histTailUnfinished⟩ 1 7).1.map
        (fun en => en.migration)).head? = some (some m)) :=
  ⟨rfl, rfl, rfl,
    plan_resumes_unfinished_tail regTwo (okRepo histTailUnfinished) planTail
      ⟨2, 3, 0⟩ 7 rfl rfl rfl⟩

/-- Closed form of the `MigrateUp` loop: it processes the fully succeeding
first steps, then, if a step remains, processes that failing step and stops
with the combined error. -/
theorem migrateUpLoop_eq (repo : Repository) (now : Nat)
    (migs : List Migration) :
    migrateUpLoop repo now migs =
      match migs.dropWhile (fun m => !(upStepFails repo m now)) with
      | [] =>
        ((migs.takeWhile (fun m => !(upStepFails repo m now))).map
            (fun m => upEntry m now),
         none,
         (migs.takeWhile (fun m => !(upStepFails repo m now))).flatMap
            (fun m => upStepTrace m now))
      | bad :: _ =>
        ((migs.takeWhile (fun m => !(upStepFails repo m now))).map
            (fun m => upEntry m now) ++ [upEntry bad now],
         some (combineStepErrors "failed to migrate all up, errors" bad.upResult
           (repo.saveResult (upRecord bad now))),
         (migs.takeWhile (fun m => !(upStepFails repo m now))).flatMap
            (fun m => upStepTrace m now) ++ upStepTrace bad now) := by
  induction migs with
  | nil => rfl
  | cons m rest ih =>
    cases hf : upStepFails repo m now with
    | true =>
      have hf' : (m.upResult.isSome || (repo.saveResult (upRecord m now)).isSome)
          = true := hf
      simp only [migrateUpLoop, List.takeWhile_cons, List.dropWhile_cons, hf,
        Bool.not_true, if_neg, hf']
      rfl
    | false =>
      have hf' : (m.upResult.isSome || (repo.saveResult (upRecord m now)).isSome)
          = false := hf
      simp only [migrateUpLoop, List.takeWhile_cons, List.dropWhile_cons, hf,
        Bool.not_false, if_pos, hf']
      rw [ih]
      cases hdw : rest.dropWhile (fun m => !(upStepFails repo m now)) with
      | nil => simp [upEntry, upStepTrace]
      | cons bad tl => simp [upEntry, upStepTrace]

/-- Closed form of the `MigrateDown` loop: it rolls back the fully succeeding
first steps, then, if a step remains, reports that failing step with a nil
execution reference and stops. -/
theorem migrateDownLoop_eq (repo : Repository)
    (pairs : List (Migration × MigrationExecution)) :
    migrateDownLoop repo pairs =
      match pairs.dropWhile (downStepOk repo) with
      | [] =>
        ((pairs.takeWhile (downStepOk repo)).map
            (fun pe => ⟨some pe.1, some pe.2⟩),
         none,
         (pairs.takeWhile (downStepOk repo)).flatMap downStepTrace)
      | bad :: _ =>
        ((pairs.takeWhile (downStepOk repo)).map
            (fun pe => ⟨some pe.1, some pe.2⟩) ++ [⟨some bad.1, none⟩],
         downStepErr repo bad,
         (pairs.takeWhile (downStepOk repo)).flatMap downStepTrace
            ++ downStepTrace bad) := by
  induction pairs with
  | nil => rfl
  | cons pe rest ih =>
    rcases pe with ⟨m, e⟩
    cases hd : m.downResult with
    | some derr =>
      have hok : downStepOk repo (m, e) = false := by
        simp [downStepOk, hd]
      simp only [migrateUpLoop, List.takeWhile_cons, List.dropWhile_cons, hok]
      simp only [migrateDownLoop, hd]
      simp [downStepErr, downStepTrace, hd]
    | none =>
      cases hr : repo.removeResult e with
      | some rerr =>
        have hok : downStepOk repo (m, e) = false := by
          simp [downStepOk, hd, hr]
        simp only [List.takeWhile_cons, List.dropWhile_cons, hok]
        simp only [migrateDownLoop, hd, hr]
        simp [downStepErr, downStepTrace, hd, hr]
      | none =>
        have hok : downStepOk repo (m, e) = true := by
          simp [downStepOk, hd, hr]
        simp only [List.takeWhile_cons, List.dropWhile_cons, hok]
        simp only [migrateDownLoop, hd, hr]
        rw [ih]
        cases hdw : rest.dropWhile (downStepOk repo) with
        | nil => simp [downStepTrace, hd]
        | cons bad tl => simp [downStepTrace, hd]

/-- A forward step that does not fail has a nil `Up()` result and a nil
`Save` result. -/
theorem upStepFails_false_elim {repo : Repository} {m : Migration} {now : Nat}
    (hp : upStepFails repo m now = false) :
    m.upResult = none ∧ repo.saveResult (upRecord m now) = none := by
  unfold upStepFails at hp
  rw [Bool.or_eq_false_iff] at hp
  constructor
  · cases hu : m.upResult with
    | none => rfl
    | some e =>
      rw [hu] at hp
      simp at hp
  · cases hs : repo.saveResult (upRecord m now) with
    | none => rfl
    | some e =>
      rw [hs] at hp
      simp at hp

/-- The record a forward step builds: started via `StartExecution` at the
current time, and finished exactly when `Up()` returned nil. -/
theorem upRecord_spec (m : Migration) (now : Nat) (hnow : 0 < now) :
    (upRecord m now).Version = m.version ∧
    (upRecord m now).ExecutedAtMs = now ∧
    ((upRecord m now).Finished = true ↔ m.upResult = none) := by
  unfold upRecord StartExecution MigrationExecution.FinishExecution
  cases m.upResult with
  | none =>
    simp [MigrationExecution.Finished]
    omega
  | some e => simp [MigrationExecution.Finished]

/-- C3, counterexample to the claim as stated: with one registered migration
whose `Up()` succeeds and a store whose `Save` fails, `MigrateUp(1)` stops
with an error and the single attempted (failed) entry carries a *finished*
record — not the unfinished record the claim requires for the failed entry. -/
theorem migrateUp_failed_entry_finished_counterexample :
    (MigrateUp ⟨regOne, saveFailRepo []⟩ 1 5).2.1.isSome = true ∧
    (MigrateUp ⟨regOne, saveFailRepo []⟩ 1 5).1.map
      (fun en => en.execution.map MigrationExecution.Finished) = [some true] := by
  constructor <;> rfl

/-- C3 (amended). `MigrateUp` batch semantics: for a non-empty registry and a
valid plan with pending list `P`, `MigrateUp(n)` attempts a prefix
`attempted` of the first `min(len(P), n)` pending migrations, in ascending
(list) order, the whole batch when no error occurs; each attempted migration
contributes the entry `upEntry` (a non-nil record created via
`StartExecution`, finished exactly when its `Up()` returned nil — when only
`Save` failed the record is finished, amending the claim) and the trace shows
its `Up()` ran and its record was saved regardless of the `Up()` outcome;
every attempted step before the last fully succeeded (so the first k-1
records are finished), and when an error is returned the last attempted step
is the one whose `Up()` or `Save` failed. -/
theorem migrateUp_batch_semantics
    (h : MigrationsHandler) (plan : ExecutionPlan) (n : Int) (now : Nat)
    (hplan : NewPlan h.registry h.repository = .ok plan)
    (hne : h.registry.Count ≠ 0) (hnow : 0 < now) :
    ∃ attempted : List Migration,
      attempted = (plan.AllToBeExecuted.take
        (min plan.AllToBeExecuted.length n.toNat)).take attempted.length ∧
      (MigrateUp h n now).1 = attempted.map (fun m => upEntry m now) ∧
      attempted.length ≤ min plan.AllToBeExecuted.length n.toNat ∧
      ((MigrateUp h n now).2.1 = none →
        attempted.length = min plan.AllToBeExecuted.length n.toNat) ∧
      (MigrateUp h n now).2.2 = attempted.flatMap (fun m => upStepTrace m now) ∧
      (∀ m ∈ attempted, (upRecord m now).Version = m.version ∧
        (upRecord m now).ExecutedAtMs = now ∧
        ((upRecord m now).Finished = true ↔ m.upResult = none)) ∧
      (∀ (j : Nat) (m : Migration), attempted[j]? = some m →
        j + 1 < attempted.length →
        m.upResult = none ∧ h.repository.saveResult (upRecord m now) = none ∧
        (upRecord m now).Finished = true) ∧
      ((MigrateUp h n now).2.1.isSome = true →
        ∃ m : Migration, attempted.getLast? = some m ∧
          upStepFails h.repository m now = true) := by
  unfold MigrateUp
  rw [if_neg hne, hplan]
  dsimp only
  have hmin : (min ((plan.AllToBeExecuted.length : Int)) n).toNat
      = min plan.AllToBeExecuted.length n.toNat := by
    omega
  rw [hmin, migrateUpLoop_eq]
  have hblen : (plan.AllToBeExecuted.take
      (min plan.AllToBeExecuted.length n.toNat)).length
      = min plan.AllToBeExecuted.length n.toNat := by
    rw [List.length_take]
    omega
  cases hdw : (plan.AllToBeExecuted.take
      (min plan.AllToBeExecuted.length n.toNat)).dropWhile
      (fun m => !(upStepFails h.repository m now)) with
  | nil =>
    dsimp only
    have hTW : (plan.AllToBeExecuted.take
        (min plan.AllToBeExecuted.length n.toNat)).takeWhile
        (fun m => !(upStepFails h.repository m now))
        = plan.AllToBeExecuted.take (min plan.AllToBeExecuted.length n.toNat) := by
      conv_rhs => rw [← List.takeWhile_append_dropWhile
        (fun m => !(upStepFails h.repository m now))
        (plan.AllToBeExecuted.take (min plan.AllToBeExecuted.length n.toNat))]
      rw [hdw, List.append_nil]
    rw [hTW]
    refine ⟨plan.AllToBeExecuted.take (min plan.AllToBeExecuted.length n.toNat),
      (List.take_length _).symm, rfl, by omega, fun _ => by omega, rfl,
      fun m _ => upRecord_spec m now hnow, ?_, ?_⟩
    · intro j m hj hjlt
      have hmem : m ∈ (plan.AllToBeExecuted.take
          (min plan.AllToBeExecuted.length n.toNat)) := List.getElem?_mem hj
      rw [← hTW] at hmem
      have hp0 := List.mem_takeWhile_imp hmem
      rw [Bool.not_eq_true'] at hp0
      obtain ⟨h1, h2⟩ := upStepFails_false_elim hp0
      exact ⟨h1, h2, ((upRecord_spec m now hnow).2.2).mpr h1⟩
    · intro hcontra
      simp at hcontra
  | cons bad tl =>
    dsimp only
    have hsplit : (plan.AllToBeExecuted.take
        (min plan.AllToBeExecuted.length n.toNat)).takeWhile
        (fun m => !(upStepFails h.repository m now)) ++ bad :: tl
        = plan.AllToBeExecuted.take (min plan.AllToBeExecuted.length n.toNat) := by
      conv_rhs => rw [← List.takeWhile_append_dropWhile
        (fun m => !(upStepFails h.repository m now))
        (plan.AllToBeExecuted.take (min plan.AllToBeExecuted.length n.toNat))]
      rw [hdw]
    set good := (plan.AllToBeExecuted.take
        (min plan.AllToBeExecuted.length n.toNat)).takeWhile
        (fun m => !(upStepFails h.repository m now)) with hgood
    have hkbound : good.length + 1 ≤ min plan.AllToBeExecuted.length n.toNat := by
      have := congrArg List.length hsplit
      simp only [List.length_append, List.length_cons] at this
      omega
    have htak : (plan.AllToBeExecuted.take
        (min plan.AllToBeExecuted.length n.toNat)).take (good.length + 1)
        = good ++ [bad] := by
      rw [← hsplit, List.take_append 1]
      rfl
    have hfailbad : upStepFails h.repository bad now = true := by
      have h0 := List.head?_dropWhile_not
        (fun m => !(upStepFails h.repository m now))
        (plan.AllToBeExecuted.take (min plan.AllToBeExecuted.length n.toNat))
      rw [hdw] at h0
      simp only [List.head?_cons] at h0
      rw [Bool.not_eq_false'] at h0
      exact h0
    refine ⟨good ++ [bad], ?_, ?_, ?_, ?_, ?_,
      fun m _ => upRecord_spec m now hnow, ?_, ?_⟩
    · rw [List.length_append, List.length_cons, List.length_nil, htak]
    · simp
    · rw [List.length_append, List.length_cons, List.length_nil]
      exact hkbound
    · intro hcontra
      exact Option.noConfusion hcontra
    · simp
    · intro j m hj hjlt
      rw [List.length_append, List.length_cons, List.length_nil] at hjlt
      have hjg : j < good.length := by omega
      rw [List.getElem?_append_left hjg] at hj
      have hmem : m ∈ good := List.getElem?_mem hj
      have hp0 := List.mem_takeWhile_imp hmem
      rw [Bool.not_eq_true'] at hp0
      obtain ⟨h1, h2⟩ := upStepFails_false_elim hp0
      exact ⟨h1, h2, ((upRecord_spec m now hnow).2.2).mpr h1⟩
    · intro _
      exact ⟨bad, List.getLast?_concat _, hfailbad⟩

/-- `migrateUp_batch_semantics` exercised on a three-migration registry whose
second migration has a failing `Up()`, with an empty history and three
requested runs. -/
theorem migrateUp_batch_semantics_witness :
    NewPlan regUpFail (okRepo []) = .ok planUpFail ∧
    MigrationsRegistry.Count regUpFail ≠ 0 ∧
    0 < 5 ∧
    (∃ attempted : List Migration,
      attempted = (planUpFail.AllToBeExecuted.take
        (min planUpFail.AllToBeExecuted.length (Int.toNat 3))).take
          attempted.length ∧
      (MigrateUp ⟨regUpFail, okRepo []⟩ 3 5).1
        = attempted.map (fun m => upEntry m 5) ∧
      attempted.length ≤ min planUpFail.AllToBeExecuted.length (Int.toNat 3) ∧
      ((MigrateUp ⟨regUpFail, okRepo []⟩ 3 5).2.1 = none →
        attempted.length
          = min planUpFail.AllToBeExecuted.length (Int.toNat 3)) ∧
      (MigrateUp ⟨regUpFail, okRepo []⟩ 3 5).2.2
        = attempted.flatMap (fun m => upStepTrace m 5) ∧
      (∀ m ∈ attempted, (upRecord m 5).Version = m.version ∧
        (upRecord m 5).ExecutedAtMs = 5 ∧
        ((upRecord m 5).Finished = true ↔ m.upResult = none)) ∧
      (∀ (j : Nat) (m : Migration), attempted[j]? = some m →
        j + 1 < attempted.length →
        m.upResult = none ∧ (okRepo []).saveResult (upRecord m 5) = none ∧
        (upRecord m 5).Finished = true) ∧
      ((MigrateUp ⟨regUpFail, okRepo []⟩ 3 5).2.1.isSome = true →
        ∃ m : Migration, attempted.getLast? = some m ∧
          upStepFails (okRepo []) m 5 = true)) :=
  ⟨rfl, by decide, by decide,
    migrateUp_batch_semantics ⟨regUpFail, okRepo []⟩ planUpFail 3 5 rfl
      (by decide) (by decide)⟩

/-- A rollback step that fully succeeds has a nil `Down()` result and a nil
`Remove` result. -/
theorem downStepOk_true_elim {repo : Repository}
    {pe : Migration × MigrationExecution} (hp : downStepOk repo pe = true) :
    pe.1.downResult = none ∧ repo.removeResult pe.2 = none := by
  unfold downStepOk at hp
  rw [Bool.and_eq_true] at hp
  constructor
  · cases hd : pe.1.downResult with
    | none => rfl
    | some de =>
      rw [hd] at hp
      simp at hp
  · cases hr : repo.removeResult pe.2 with
    | none => rfl
    | some re =>
      rw [hr] at hp
      simp at hp

/-- A failing rollback step reports either its `Down()` error or, when
`Down()` succeeded, its `Remove` error. -/
theorem downStepOk_false_elim {repo : Repository}
    {pe : Migration × MigrationExecution} (hp : downStepOk repo pe = false) :
    ∃ e0, downStepErr repo pe = some e0 ∧
      (pe.1.downResult = some e0 ∨
        (pe.1.downResult = none ∧ repo.removeResult pe.2 = some e0)) := by
  unfold downStepOk at hp
  unfold downStepErr
  cases hd : pe.1.downResult with
  | some de => exact ⟨de, rfl, Or.inl rfl⟩
  | none =>
    rw [hd] at hp
    simp only [Option.isNone_none, Bool.true_and] at hp
    cases hr : repo.removeResult pe.2 with
    | none =>
      rw [hr] at hp
      simp at hp
    | some re => exact ⟨re, rfl, Or.inr ⟨rfl, rfl⟩⟩

/-- The migrations of the executed pairs are the first
`min(len(migrations), len(executions))` registered migrations, in order. -/
theorem zipWith_pair_fst :
    ∀ (migs : List Migration) (execs : List MigrationExecution),
      (List.zipWith (fun m e => (m, e)) migs execs).map (fun pe => pe.1)
        = migs.take (min migs.length execs.length)
  | [], _ => by simp
  | _ :: _, [] => by simp
  | m :: ms, e :: es => by
    simp only [List.zipWith_cons_cons, List.map_cons, List.length_cons,
      Nat.succ_min_succ, List.take_succ_cons]
    rw [zipWith_pair_fst ms es]

/-- `ascendingVersions` means the mapped version list is a strictly
increasing chain. -/
theorem ascendingVersions_chain (l : List Migration)
    (h : ascendingVersions l = true) :
    List.Chain' (fun a b => a < b) (l.map (fun m => m.version)) := by
  induction l with
  | nil => simp
  | cons m1 rest ih =>
    cases rest with
    | nil => simp
    | cons m2 rest2 =>
      rw [ascendingVersions, Bool.and_eq_true] at h
      rw [List.map_cons, List.map_cons, List.chain'_cons]
      exact ⟨of_decide_eq_true h.1, by
        have := ih h.2
        rw [List.map_cons] at this
        exact this⟩

/-- C4. `MigrateDown` descending order and halt-on-error: on a valid plan,
`MigrateDown(n)` attempts a prefix `attempted` of the reversed executed list
of length at most `min(m, n)`; the trace consists, per attempted pair in
order, of its backward action followed by its removal only when the backward
action succeeded — so no backward action of any version earlier (further down
the reversed order) than the failure point is ever invoked; the attempted
versions are strictly descending; with no error every attempted pair fully
succeeded and all `min(m, n)` were processed; with an error the last attempted
pair is reported with a nil execution reference, every earlier pair fully
succeeded, and the error is that pair's `Down()` error or (only after its
`Down()` succeeded) its `Remove` error. -/
theorem migrateDown_descending_halt
    (h : MigrationsHandler) (plan : ExecutionPlan) (n : Int)
    (hplan : NewPlan h.registry h.repository = .ok plan)
    (hR : h.registry.WellFormed) :
    ∃ attempted : List (Migration × MigrationExecution),
      attempted = (plan.executedPairs.reverse.take
        (min plan.executedPairs.length n.toNat)).take attempted.length ∧
      attempted.length ≤ min plan.executedPairs.length n.toNat ∧
      (MigrateDown h n).2.2 = attempted.flatMap downStepTrace ∧
      (attempted.map (fun pe => pe.1.version)).Pairwise (fun a b => b < a) ∧
      ((MigrateDown h n).2.1 = none →
        (MigrateDown h n).1
          = attempted.map (fun pe => ⟨some pe.1, some pe.2⟩) ∧
        attempted.length = min plan.executedPairs.length n.toNat ∧
        ∀ pe ∈ attempted, pe.1.downResult = none ∧
          h.repository.removeResult pe.2 = none) ∧
      (∀ e0, (MigrateDown h n).2.1 = some e0 →
        ∃ bad : Migration × MigrationExecution,
          attempted.getLast? = some bad ∧
          (MigrateDown h n).1
            = attempted.dropLast.map (fun pe => ⟨some pe.1, some pe.2⟩)
              ++ [⟨some bad.1, none⟩] ∧
          (∀ pe ∈ attempted.dropLast, pe.1.downResult = none ∧
            h.repository.removeResult pe.2 = none) ∧
          (bad.1.downResult = some e0 ∨
            (bad.1.downResult = none ∧
              h.repository.removeResult bad.2 = some e0))) := by
  obtain ⟨hm, -, -, hlen, -, hver⟩ := newPlan_ok_elim hplan
  have hasc0 : ascendingVersions plan.orderedMigrations = true := by
    rw [hm]
    exact hR
  have hpw : (plan.orderedMigrations.map (fun m => m.version)).Pairwise
      (fun a b => a < b) :=
    List.chain'_iff_pairwise.mp (ascendingVersions_chain _ hasc0)
  have hfst : plan.executedPairs.map (fun pe => pe.1)
      = plan.orderedMigrations.take
          (min plan.orderedMigrations.length plan.orderedExecutions.length) := by
    unfold ExecutionPlan.executedPairs
    exact zipWith_pair_fst _ _
  have hpwPairs : (plan.executedPairs.map (fun pe => pe.1.version)).Pairwise
      (fun a b => a < b) := by
    have hmm : plan.executedPairs.map (fun pe => pe.1.version)
        = (plan.executedPairs.map (fun pe => pe.1)).map (fun m => m.version) := by
      rw [List.map_map]
      rfl
    rw [hmm, hfst]
    exact List.Pairwise.sublist ((List.take_sublist _ _).map _) hpw
  have hpwRev : ((plan.executedPairs.reverse).map
      (fun pe => pe.1.version)).Pairwise (fun a b => b < a) := by
    rw [List.map_reverse, List.pairwise_reverse]
    exact hpwPairs
  unfold MigrateDown
  rw [hplan]
  dsimp only
  rw [List.length_reverse]
  have hmin : (min ((plan.executedPairs.length : Int)) n).toNat
      = min plan.executedPairs.length n.toNat := by
    omega
  rw [hmin, migrateDownLoop_eq]
  have hblen : (plan.executedPairs.reverse.take
      (min plan.executedPairs.length n.toNat)).length
      = min plan.executedPairs.length n.toNat := by
    rw [List.length_take, List.length_reverse]
    omega
  have hbsub : List.Sublist (plan.executedPairs.reverse.take
      (min plan.executedPairs.length n.toNat)) plan.executedPairs.reverse :=
    List.take_sublist _ _
  cases hdw : (plan.executedPairs.reverse.take
      (min plan.executedPairs.length n.toNat)).dropWhile
      (downStepOk h.repository) with
  | nil =>
    dsimp only
    have hTW : (plan.executedPairs.reverse.take
        (min plan.executedPairs.length n.toNat)).takeWhile
        (downStepOk h.repository)
        = plan.executedPairs.reverse.take
            (min plan.executedPairs.length n.toNat) := by
      conv_rhs => rw [← List.takeWhile_append_dropWhile
        (downStepOk h.repository)
        (plan.executedPairs.reverse.take
          (min plan.executedPairs.length n.toNat))]
      rw [hdw, List.append_nil]
    rw [hTW]
    refine ⟨plan.executedPairs.reverse.take
        (min plan.executedPairs.length n.toNat),
      (List.take_length _).symm, by omega, rfl, ?_, ?_, ?_⟩
    · exact List.Pairwise.sublist (hbsub.map _) hpwRev
    · intro _
      refine ⟨rfl, by omega, ?_⟩
      intro pe hmem
      rw [← hTW] at hmem
      exact downStepOk_true_elim (List.mem_takeWhile_imp hmem)
    · intro e0 hcontra
      exact Option.noConfusion hcontra
  | cons bad tl =>
    dsimp only
    have hsplit : (plan.executedPairs.reverse.take
        (min plan.executedPairs.length n.toNat)).takeWhile
        (downStepOk h.repository) ++ bad :: tl
        = plan.executedPairs.reverse.take
            (min plan.executedPairs.length n.toNat) := by
      conv_rhs => rw [← List.takeWhile_append_dropWhile
        (downStepOk h.repository)
        (plan.executedPairs.reverse.take
          (min plan.executedPairs.length n.toNat))]
      rw [hdw]
    set good := (plan.executedPairs.reverse.take
        (min plan.executedPairs.length n.toNat)).takeWhile
        (downStepOk h.repository) with hgood
    have hkbound : good.length + 1 ≤ min plan.executedPairs.length n.toNat := by
      have := congrArg List.length hsplit
      simp only [List.length_append, List.length_cons] at this
      omega
    have htak : (plan.executedPairs.reverse.take
        (min plan.executedPairs.length n.toNat)).take (good.length + 1)
        = good ++ [bad] := by
      rw [← hsplit, List.take_append 1]
      rfl
    have hfailbad : downStepOk h.repository bad = false := by
      have h0 := List.head?_dropWhile_not (downStepOk h.repository)
        (plan.executedPairs.reverse.take
          (min plan.executedPairs.length n.toNat))
      rw [hdw] at h0
      simp only [List.head?_cons] at h0
      exact h0
    refine ⟨good ++ [bad], ?_, ?_, ?_, ?_, ?_, ?_⟩
    · rw [List.length_append, List.length_cons, List.length_nil, htak]
    · rw [List.length_append, List.length_cons, List.length_nil]
      exact hkbound
    · simp
    · refine List.Pairwise.sublist ?_ hpwRev
      refine List.Sublist.map _ ?_
      rw [← htak]
      exact (List.take_sublist _ _).trans hbsub
    · intro hcontra
      obtain ⟨e0, he0, -⟩ := downStepOk_false_elim hfailbad
      rw [he0] at hcontra
      exact Option.noConfusion hcontra
    · intro e0 hsome
      obtain ⟨e1, he1, hcase⟩ := downStepOk_false_elim hfailbad
      rw [he1] at hsome
      injection hsome with he10
      subst he10
      refine ⟨bad, List.getLast?_concat _, ?_, ?_, hcase⟩
      · rw [List.dropLast_concat]
      · rw [List.dropLast_concat]
        intro pe hmem
        rw [hgood] at hmem
        exact downStepOk_true_elim (List.mem_takeWhile_imp hmem)

/-- `migrateDown_descending_halt` exercised on the claim's example: a fully
finished history [v1, v2, v3] with two requested rollbacks, which must roll
back v3 then v2 and never touch v1. -/
theorem migrateDown_descending_halt_witness :
    NewPlan regThree (okRepo histThree) = .ok planThree ∧
    regThree.WellFormed ∧
    (∃ attempted : List (Migration × MigrationExecution),
      attempted = (planThree.executedPairs.reverse.take
        (min planThree.executedPairs.length (Int.toNat 2))).take
          attempted.length ∧
      attempted.length ≤ min planThree.executedPairs.length (Int.toNat 2) ∧
      (MigrateDown ⟨regThree, okRepo histThree⟩ 2).2.2
        = attempted.flatMap downStepTrace ∧
      (attempted.map (fun pe => pe.1.version)).Pairwise (fun a b => b < a) ∧
      ((MigrateDown ⟨regThree, okRepo histThree⟩ 2).2.1 = none →
        (MigrateDown ⟨regThree, okRepo histThree⟩ 2).1
          = attempted.map (fun pe => ⟨some pe.1, some pe.2⟩) ∧
        attempted.length = min planThree.executedPairs.length (Int.toNat 2) ∧
        ∀ pe ∈ attempted, pe.1.downResult = none ∧
          (okRepo histThree).removeResult pe.2 = none) ∧
      (∀ e0, (MigrateDown ⟨regThree, okRepo histThree⟩ 2).2.1 = some e0 →
        ∃ bad : Migration × MigrationExecution,
          attempted.getLast? = some bad ∧
          (MigrateDown ⟨regThree, okRepo histThree⟩ 2).1
            = attempted.dropLast.map (fun pe => ⟨some pe.1, some pe.2⟩)
              ++ [⟨some bad.1, none⟩] ∧
          (∀ pe ∈ attempted.dropLast, pe.1.downResult = none ∧
            (okRepo histThree).removeResult pe.2 = none) ∧
          (bad.1.downResult = some e0 ∨
            (bad.1.downResult = none ∧
              (okRepo histThree).removeResult bad.2 = some e0)))) :=
  ⟨rfl, by decide,
    migrateDown_descending_halt ⟨regThree, okRepo histThree⟩ planThree 2 rfl
      (by decide)⟩

/-- C5, counterexample to the claim as stated: in the valid plan built from a
finished record for version 1 and an unfinished tail record for version 2,
`AllExecuted()` returns two pairs though only one record is finished, its last
pair carries the *unfinished* tail record rather than excluding it, and
`LastExecuted()` returns that unfinished pair rather than the last finished
one. -/
theorem allExecuted_excludes_tail_counterexample :
    NewPlan regTwo (okRepo histTailUnfinished) = .ok planTail ∧
    planTail.FinishedExecutionsCount = 1 ∧
    planTail.AllExecuted.length = 2 ∧
    planTail.AllExecuted.getLast? = some ⟨some (mig 2), some ⟨2, 3, 0⟩⟩ ∧
    MigrationExecution.Finished ⟨2, 3, 0⟩ = false ∧
    planTail.LastExecuted = ⟨some (mig 2), some ⟨2, 3, 0⟩⟩ :=
  ⟨rfl, rfl, rfl, rfl, rfl, rfl⟩

/-- The indexed content of the executed pairs: one pair per execution record,
aligned with the registered migration at the same index. -/
theorem zipWith_pair_getElem :
    ∀ (migs : List Migration) (execs : List MigrationExecution) (j : Nat)
      (e : MigrationExecution) (m : Migration),
      execs[j]? = some e → migs[j]? = some m →
      (List.zipWith (fun m e => (m, e)) migs execs)[j]? = some (m, e) := by
  intro migs execs j e m he hm
  rw [List.getElem?_zipWith, he, hm]

/-- C5 (amended). `AllExecuted()` returns one `(migration, executionRecord)`
pair per record of the sorted execution history — finished or not, so an
unfinished tail record is included — aligned by index with the registered
migrations and with matching versions; `LastExecuted()` is the last such pair,
or the zero value when there are none. -/
theorem allExecuted_pairs_all_records
    (R : MigrationsRegistry) (repo : Repository) (plan : ExecutionPlan)
    (hplan : NewPlan R repo = .ok plan) :
    plan.AllExecuted.length = plan.orderedExecutions.length ∧
    (∀ (j : Nat) (e : MigrationExecution),
      plan.orderedExecutions[j]? = some e →
      ∃ m : Migration, plan.orderedMigrations[j]? = some m ∧
        plan.AllExecuted[j]? = some ⟨some m, some e⟩ ∧ e.Version = m.version) ∧
    (plan.AllExecuted = [] → plan.LastExecuted = ⟨none, none⟩) ∧
    (∀ em, plan.AllExecuted.getLast? = some em → plan.LastExecuted = em) := by
  obtain ⟨-, -, -, hlen, -, hver⟩ := newPlan_ok_elim hplan
  refine ⟨?_, ?_, ?_, ?_⟩
  · unfold ExecutionPlan.AllExecuted ExecutionPlan.executedPairs
    rw [List.length_map, List.length_zipWith]
    omega
  · intro j e he
    have hj : j < plan.orderedExecutions.length := by
      by_contra hc
      rw [List.getElem?_eq_none_iff.mpr (by omega)] at he
      exact Option.noConfusion he
    have hm : ∃ m : Migration, plan.orderedMigrations[j]? = some m := by
      rcases hx : plan.orderedMigrations[j]? with - | m
      · rw [List.getElem?_eq_none_iff] at hx
        omega
      · exact ⟨m, rfl⟩
    obtain ⟨m, hm⟩ := hm
    refine ⟨m, hm, ?_, hver j e m he hm⟩
    unfold ExecutionPlan.AllExecuted ExecutionPlan.executedPairs
    rw [List.getElem?_map, zipWith_pair_getElem _ _ j e m he hm]
    rfl
  · intro hempty
    unfold ExecutionPlan.LastExecuted
    rw [hempty]
    rfl
  · intro em hlast
    unfold ExecutionPlan.LastExecuted
    rw [hlast]
    rfl

/-- `allExecuted_pairs_all_records` exercised on the plan with a finished
record for version 1 and an unfinished tail record for version 2. -/
theorem allExecuted_pairs_all_records_witness :
    NewPlan regTwo (okRepo histTailUnfinished) = .ok planTail ∧
    (planTail.AllExecuted.length = planTail.orderedExecutions.length ∧
     (∀ (j : Nat) (e : MigrationExecution),
        planTail.orderedExecutions[j]? = some e →
        ∃ m : Migration, planTail.orderedMigrations[j]? = some m ∧
          planTail.AllExecuted[j]? = some ⟨some m, some e⟩ ∧
          e.Version = m.version) ∧
     (planTail.AllExecuted = [] → planTail.LastExecuted = ⟨none, none⟩) ∧
     (∀ em, planTail.AllExecuted.getLast? = some em →
        planTail.LastExecuted = em)) :=
  ⟨rfl, allExecuted_pairs_all_records regTwo (okRepo histTailUnfinished)
    planTail rfl⟩

/-- C6. `ForceDown` precondition and steps: an unregistered version is a
no-op with no error and no calls; a `FindOne` error is propagated with no
backward action invoked and nothing removed; a registered version with no
execution record fails with the never-executed error, invoking no backward
action and removing nothing; a `Down()` failure stops before any removal; and
only when `Down()` succeeds is the record removed via `Remove`. -/
theorem forceDown_spec (h : MigrationsHandler) (v : Nat) :
    (h.registry.Get v = none → ForceDown h v = (⟨none, none⟩, none, [])) ∧
    (∀ m : Migration, h.registry.Get v = some m →
      ((∀ fe e0, h.repository.findOneResult v = (fe, some e0) →
          ForceDown h v = (⟨some m, none⟩,
            some (.wrap
              "failed to migrate down forcefully, failed to load execution" e0),
            [.findOne v])) ∧
       (h.repository.findOneResult v = (none, none) →
          ForceDown h v = (⟨some m, none⟩,
            some (.simple
              "failed to migrate down forcefully, execution not found. Maybe the migration was never executed"),
            [.findOne v])) ∧
       (∀ exec, h.repository.findOneResult v = (some exec, none) →
          ((∀ de, m.downResult = some de →
              ForceDown h v = (⟨some m, none⟩,
                some (.wrap
                  "failed to migrate down forcefully, down() failed" de),
                [.findOne v, .down m.version])) ∧
           (m.downResult = none →
              ForceDown h v = (⟨some m, some exec⟩,
                h.repository.removeResult exec,
                [.findOne v, .down m.version, .remove exec])))))) := by
  refine ⟨?_, ?_⟩
  · intro hget
    unfold ForceDown
    rw [hget]
  · intro m hget
    refine ⟨?_, ?_, ?_⟩
    · intro fe e0 hfind
      unfold ForceDown
      rw [hget, hfind]
      cases fe <;> rfl
    · intro hfind
      unfold ForceDown
      rw [hget, hfind]
    · intro exec hfind
      refine ⟨?_, ?_⟩
      · intro de hdown
        unfold ForceDown
        rw [hget, hfind]
        dsimp only
        rw [hdown]
      · intro hdown
        unfold ForceDown
        rw [hget, hfind]
        dsimp only
        rw [hdown]

/-- `forceDown_spec` exercised on a registered version with no execution
record: the never-executed error, and no backward action in the trace. -/
theorem forceDown_spec_witness :
    MigrationsRegistry.Get regOne 1 = some (mig 1) ∧
    (okRepo []).findOneResult 1 = (none, none) ∧
    ForceDown ⟨regOne, okRepo []⟩ 1 = (⟨some (mig 1), none⟩,
      some (.simple
        "failed to migrate down forcefully, execution not found. Maybe the migration was never executed"),
      [.findOne 1]) :=
  ⟨rfl, rfl, ((forceDown_spec ⟨regOne, okRepo []⟩ 1).2 (mig 1) rfl).2.1 rfl⟩

/-- C7. `ForceUp` semantics: an unregistered version is a no-op with no error
and no calls; otherwise a fresh record is started, `Up()` runs, the record is
finished exactly when `Up()` returned nil, the record is saved via `Save`
unconditionally (the trace always contains the save), and when both the
forward action and the save fail the returned error joins both errors. -/
theorem forceUp_spec (h : MigrationsHandler) (v : Nat) (now : Nat)
    (hnow : 0 < now) :
    (h.registry.Get v = none → ForceUp h v now = (⟨none, none⟩, none, [])) ∧
    (∀ m : Migration, h.registry.Get v = some m →
      ForceUp h v now = (⟨some m, some (upRecord m now)⟩,
        (match m.upResult, h.repository.saveResult (upRecord m now) with
         | none, es => es
         | some e, none => some e
         | some e, some es => some (.joins "" e es)),
        [.up m.version, .save (upRecord m now)]) ∧
      ((upRecord m now).Finished = true ↔ m.upResult = none) ∧
      (∀ e es, m.upResult = some e →
        h.repository.saveResult (upRecord m now) = some es →
        (ForceUp h v now).2.1 = some (.joins "" e es))) := by
  refine ⟨?_, ?_⟩
  · intro hget
    unfold ForceUp
    rw [hget]
  · intro m hget
    refine ⟨?_, (upRecord_spec m now hnow).2.2, ?_⟩
    · unfold ForceUp
      rw [hget]
      dsimp only
      cases hu : m.upResult <;>
        cases hs : h.repository.saveResult (upRecord m now) <;>
        simp [upRecord, hu, hs]
    · intro e es he hes
      unfold ForceUp
      rw [hget]
      dsimp only
      rw [he, hes]

/-- `forceUp_spec` exercised on a registered version whose `Up()` fails and
whose `Save` also fails: the returned error joins both errors. -/
theorem forceUp_spec_witness :
    0 < 5 ∧
    MigrationsRegistry.Get ⟨[migUpFail 4]⟩ 4 = some (migUpFail 4) ∧
    (migUpFail 4).upResult = some upBoom ∧
    (saveFailRepo []).saveResult (upRecord (migUpFail 4) 5) = some saveBoom ∧
    (ForceUp ⟨⟨[migUpFail 4]⟩, saveFailRepo []⟩ 4 5).2.1
      = some (.joins "" upBoom saveBoom) :=
  ⟨by decide, rfl, rfl, rfl,
    ((forceUp_spec ⟨⟨[migUpFail 4]⟩, saveFailRepo []⟩ 4 5 (by decide)).2
      (migUpFail 4) rfl).2.2 upBoom saveBoom rfl rfl⟩

/-- `TrimSpace` leaves nothing exactly when every character is white space. -/
theorem trimSpace_eq_nil_iff (s : String) :
    trimSpace s = [] ↔ s.toList.all isGoSpace = true := by
  unfold trimSpace
  rw [List.reverse_eq_nil_iff, List.dropWhile_eq_nil_iff, List.all_eq_true]
  constructor
  · intro hall x hx
    have hx2 : x ∈ (s.toList.takeWhile isGoSpace)
        ++ (s.toList.dropWhile isGoSpace) := by
      rw [List.takeWhile_append_dropWhile]
      exact hx
    rcases List.mem_append.mp hx2 with h1 | h2
    · exact List.mem_takeWhile_imp h1
    · exact hall x (List.mem_reverse.mpr h2)
  · intro hall x hx
    exact hall x ((List.dropWhile_sublist isGoSpace).subset
      (List.mem_reverse.mp hx))

/-- An ASCII digit is not white space. -/
theorem isDigit_not_space {c : Char} (hd : isDigit c = true) :
    isGoSpace c = false := by
  unfold isDigit at hd
  rw [Bool.and_eq_true, decide_eq_true_eq, decide_eq_true_eq] at hd
  unfold isGoSpace
  simp only [Bool.or_eq_false_iff, decide_eq_false_iff_not,
    Bool.and_eq_false_iff, decide_eq_false_iff_not, not_le]
  omega

/-- A string `Atoi` accepts is not all white space (its first character is a
sign or a digit). -/
theorem atoi_some_not_space {s : String} {k : Int} (h : Atoi s = some k) :
    s.toList.all isGoSpace = false := by
  unfold Atoi at h
  cases hc : s.toList with
  | nil =>
    rw [hc] at h
    exact absurd h (by simp [atoiChars])
  | cons c rest =>
    rw [hc] at h
    rw [atoiChars] at h
    by_cases h1 : c = '+'
    · subst h1
      have hplus : isGoSpace '+' = false := rfl
      simp [List.all_cons, hplus]
    · rw [if_neg h1] at h
      by_cases h2 : c = '-'
      · subst h2
        have hminus : isGoSpace '-' = false := rfl
        simp [List.all_cons, hminus]
      · rw [if_neg h2] at h
        cases hd : isDigit c with
        | false =>
          exfalso
          unfold atoiDigits parseDigits at h
          rw [hd] at h
          simp at h
        | true =>
          simp [List.all_cons, isDigit_not_space hd]

/-- `Atoi` rejects the literal string `"all"`. -/
theorem atoi_all_none : Atoi "all" = none := rfl

/-- C8. Steps parsing: the empty string and any all-whitespace string parse
to 1 with no error; `"all"` parses to 99999 with no error; any string `Atoi`
parses to a non-positive integer is clamped to 1 with no error; any string
`Atoi` parses to a positive integer `k` yields `k` with no error; and any
other string (not `"all"`, not blank, not an integer) yields 1 together with
an error. -/
theorem newNumOfRuns_spec :
    NewNumOfRuns "" = (1, none) ∧
    (∀ s : String, s.toList.all isGoSpace = true → NewNumOfRuns s = (1, none)) ∧
    NewNumOfRuns "all" = (99999, none) ∧
    (∀ (s : String) (k : Int), Atoi s = some k → k ≤ 0 →
      NewNumOfRuns s = (1, none)) ∧
    (∀ (s : String) (k : Int), Atoi s = some k → 0 < k →
      NewNumOfRuns s = (k, none)) ∧
    (∀ s : String, s ≠ "all" → s.toList.all isGoSpace = false →
      Atoi s = none →
      (NewNumOfRuns s).1 = 1 ∧ (NewNumOfRuns s).2.isSome = true) := by
  have hbranch : ∀ s : String, s ≠ "all" → s.toList.all isGoSpace = false →
      NewNumOfRuns s = (match Atoi s with
        | none => (1, some (.simple
            "failed to build new num of runs from provided string"))
        | some parsedNum => (if parsedNum ≤ 0 then 1 else parsedNum, none)) := by
    intro s hne hsp
    unfold NewNumOfRuns
    rw [if_neg (by simp [hne]), if_neg (by
      intro hEmp
      rw [List.isEmpty_eq_true] at hEmp
      have htrue := (trimSpace_eq_nil_iff s).mp hEmp
      rw [htrue] at hsp
      exact Bool.noConfusion hsp)]
  refine ⟨rfl, ?_, rfl, ?_, ?_, ?_⟩
  · intro s hsp
    have hne : s ≠ "all" := by
      intro he
      subst he
      exact absurd hsp (by decide)
    unfold NewNumOfRuns
    rw [if_neg (by simp [hne]), if_pos (by
      rw [List.isEmpty_eq_true]
      exact (trimSpace_eq_nil_iff s).mpr hsp)]
    rfl
  · intro s k hA hk
    have hne : s ≠ "all" := by
      intro he
      subst he
      rw [atoi_all_none] at hA
      exact Option.noConfusion hA
    rw [hbranch s hne (atoi_some_not_space hA), hA]
    dsimp only
    rw [if_pos hk]
  · intro s k hA hk
    have hne : s ≠ "all" := by
      intro he
      subst he
      rw [atoi_all_none] at hA
      exact Option.noConfusion hA
    rw [hbranch s hne (atoi_some_not_space hA), hA]
    dsimp only
    rw [if_neg (by omega)]
  · intro s hne hsp hA
    rw [hbranch s hne hsp, hA]
    exact ⟨rfl, rfl⟩

/-- `newNumOfRuns_spec` exercised on `""`, `" "`, `"all"`, `"0"`, `"-5"`,
`"7"` and `"abc"`. -/
theorem newNumOfRuns_spec_witness :
    NewNumOfRuns "" = (1, none) ∧
    (" ".toList.all isGoSpace = true ∧ NewNumOfRuns " " = (1, none)) ∧
    NewNumOfRuns "all" = (99999, none) ∧
    (Atoi "0" = some 0 ∧ NewNumOfRuns "0" = (1, none)) ∧
    (Atoi "-5" = some (-5) ∧ NewNumOfRuns "-5" = (1, none)) ∧
    (Atoi "7" = some 7 ∧ NewNumOfRuns "7" = (7, none)) ∧
    ("abc" ≠ "all" ∧ "abc".toList.all isGoSpace = false ∧ Atoi "abc" = none ∧
      (NewNumOfRuns "abc").1 = 1 ∧ (NewNumOfRuns "abc").2.isSome = true) :=
  ⟨newNumOfRuns_spec.1,
    ⟨by decide, newNumOfRuns_spec.2.1 " " (by decide)⟩,
    newNumOfRuns_spec.2.2.1,
    ⟨rfl, newNumOfRuns_spec.2.2.2.1 "0" 0 rfl (by decide)⟩,
    ⟨rfl, newNumOfRuns_spec.2.2.2.1 "-5" (-5) rfl (by decide)⟩,
    ⟨rfl, newNumOfRuns_spec.2.2.2.2.1 "7" 7 rfl (by decide)⟩,
    by
      have h := newNumOfRuns_spec.2.2.2.2.2 "abc" (by decide) (by decide) rfl
      exact ⟨by decide, by decide, rfl, h.1, h.2⟩⟩

/-- C9. Plan partition invariant: in every plan `NewPlan` returns without
error, the finished count is at most the registered count and the pending
list has exactly `registered - finished` elements, so the finished prefix and
the pending suffix partition the ordered registered migrations. -/
theorem plan_partition_invariant
    (R : MigrationsRegistry) (repo : Repository) (plan : ExecutionPlan)
    (hplan : NewPlan R repo = .ok plan) :
    plan.FinishedExecutionsCount ≤ plan.RegisteredMigrationsCount ∧
    plan.AllToBeExecuted.length
      = plan.RegisteredMigrationsCount - plan.FinishedExecutionsCount := by
  obtain ⟨-, -, -, hlen, -, -⟩ := newPlan_ok_elim hplan
  have hfc : plan.FinishedExecutionsCount ≤ plan.orderedExecutions.length := by
    unfold ExecutionPlan.FinishedExecutionsCount
    cases hl : plan.orderedExecutions.getLast? with
    | none =>
      dsimp only
      omega
    | some e =>
      dsimp only
      split <;> omega
  constructor
  · unfold ExecutionPlan.RegisteredMigrationsCount
    omega
  · unfold ExecutionPlan.AllToBeExecuted
    split
    · rw [List.length_drop]
      rfl
    · next hge =>
      unfold ExecutionPlan.RegisteredMigrationsCount at hge ⊢
      simp only [List.length_nil]
      omega

/-- `plan_partition_invariant` exercised on the plan with one finished record
and an unfinished tail over two registered migrations. -/
theorem plan_partition_invariant_witness :
    NewPlan regTwo (okRepo histTailUnfinished) = .ok planTail ∧
    (planTail.FinishedExecutionsCount ≤ planTail.RegisteredMigrationsCount ∧
     planTail.AllToBeExecuted.length
       = planTail.RegisteredMigrationsCount
         - planTail.FinishedExecutionsCount) :=
  ⟨rfl, plan_partition_invariant regTwo (okRepo histTailUnfinished)
    planTail rfl⟩

/-- C10. Finishing an execution is idempotent: a finished execution is left
unchanged by `FinishExecution` (its `FinishedAtMs` keeps its value), after
any `FinishExecution` call the execution is finished, and `Finished()` holds
exactly when `FinishedAtMs > 0`. -/
theorem finishExecution_idempotent (e : MigrationExecution) (now : Nat)
    (hnow : 0 < now) :
    (e.Finished = true → e.FinishExecution now = e) ∧
    (e.FinishExecution now).Finished = true ∧
    (e.Finished = true ↔ 0 < e.FinishedAtMs) := by
  refine ⟨?_, ?_, ?_⟩
  · intro hf
    unfold MigrationExecution.FinishExecution
    rw [if_pos hf]
  · unfold MigrationExecution.FinishExecution
    by_cases hf : e.Finished = true
    · rw [if_pos hf]
      exact hf
    · rw [if_neg hf]
      unfold MigrationExecution.Finished
      simp only [gt_iff_lt, decide_eq_true_eq]
      omega
  · unfold MigrationExecution.Finished
    simp

/-- `finishExecution_idempotent` exercised on an already finished record at
time 5. -/
theorem finishExecution_idempotent_witness :
    0 < 5 ∧
    ((MigrationExecution.Finished ⟨1, 2, 3⟩ = true →
        MigrationExecution.FinishExecution ⟨1, 2, 3⟩ 5 = ⟨1, 2, 3⟩) ∧
     (MigrationExecution.FinishExecution ⟨1, 2, 3⟩ 5).Finished = true ∧
     (MigrationExecution.Finished ⟨1, 2, 3⟩ = true ↔
        0 < (⟨1, 2, 3⟩ : MigrationExecution).FinishedAtMs)) :=
  ⟨by decide, finishExecution_idempotent ⟨1, 2, 3⟩ 5 (by decide)⟩

end GoMigrations
